import Mathlib

/-!
Verification of the LOOS VSA eigensolver pipeline.

A shallow embedding of `src/Packages/ElasticNetworks/vsa-lib.cpp` (namespace
`ENM`, class `VSA`): the routines `VSA::eigenDecomp`, `VSA::massWeight` and
`VSA::solve`.  Matrices of `double` are modelled as exact rational matrices
`Matrix (Fin r) (Fin c) ℚ`.  The external LAPACK/BLAS routines (`dsygvx`,
`dpotrf`, `dgesvd` behind `loos::svd`, `dlamch`) are not part of the
repository; they are modelled as oracle fields of a `Backend` structure, and
the theorems hold for every backend.  The deterministic BLAS triangular
multiply `dtrmm('L','U','N','N')` is embedded by its documented semantics
(multiplication by the upper triangle of its first argument).  LOOS matrix
primitives (`submatrix`, `Math::invert`, `sortedIndex`, `permuteRows`,
`permuteColumns`, `reverseRows`, `reverseColumns`, `normalizeColumns`) are
part of the repository but their sources are not included here; they are
modelled from the specification's description of the dense-matrix primitive
layer and of the orchestrator.
-/

namespace ENM

/-- Error taxonomy of the solve pipeline, following the specification's
error-handling design.  The reference code aborts the process via `exit`;
each distinct abort site is modelled as a distinct error value.
`configuration` is the caller-input validation failure described by the
specification; it is included so that statements about it can be expressed. -/
inductive VsaError where
  | configuration
  | submatrixBounds
  | singularMatrix
  | eigensolve (info : ℤ)
  | eigenpairCount (got : ℤ) (expected : ℤ)
  | choleskyFail (info : ℤ)
deriving DecidableEq, Repr

/-- The argument block that `VSA::eigenDecomp` passes to the LAPACK driver
`dsygvx`: problem type, job, range selection, triangle, value bounds,
index bounds and absolute tolerance. -/
structure DsygvxArgs where
  itype : ℤ
  jobz : Char
  range : Char
  uplo : Char
  vl : ℚ
  vu : ℚ
  il : ℤ
  iu : ℤ
  abstol : ℚ
deriving DecidableEq, Repr

/-- Everything `dsygvx` hands back: the status `info`, the number `m` of
eigenpairs found, the eigenvalue buffer `w`, the eigenvector buffer `z`,
and the overwritten contents of the two input buffers. -/
structure DsygvxOut (nn : ℕ) where
  info : ℤ
  m : ℤ
  w : Matrix (Fin nn) (Fin 1) ℚ
  z : Matrix (Fin nn) (Fin nn) ℚ
  aOut : Matrix (Fin nn) (Fin nn) ℚ
  bOut : Matrix (Fin nn) (Fin nn) ℚ

/-- Oracles for the external numerical routines used by `vsa-lib.cpp`.
`dsygvxSize` is the workspace-sizing call (`lwork = -1`), returning a status
and the requested workspace size; `dsygvxRun` is the real solve;
`svd` models `loos::svd` (returning the tuple U, S, Vt); `dpotrf` models the
LAPACK Cholesky factorization (status and overwritten buffer); `sqrtFn`
models the floating-point square root used when normalizing columns;
`dlamchS` models `dlamch('S')`, the safe-minimum machine constant. -/
structure Backend where
  dlamchS : ℚ
  dsygvxSize : (nn : ℕ) → DsygvxArgs → Matrix (Fin nn) (Fin nn) ℚ →
    Matrix (Fin nn) (Fin nn) ℚ → ℤ × ℕ
  dsygvxRun : (nn : ℕ) → DsygvxArgs → ℕ → Matrix (Fin nn) (Fin nn) ℚ →
    Matrix (Fin nn) (Fin nn) ℚ → DsygvxOut nn
  svd : (k : ℕ) → Matrix (Fin k) (Fin k) ℚ →
    Matrix (Fin k) (Fin k) ℚ × Matrix (Fin k) (Fin 1) ℚ × Matrix (Fin k) (Fin k) ℚ
  dpotrf : (k : ℕ) → Matrix (Fin k) (Fin k) ℚ → ℤ × Matrix (Fin k) (Fin k) ℚ
  sqrtFn : ℚ → ℚ

/-- Modelled from the spec: the dense-matrix primitive "extraction of an
arbitrary contiguous row/column rectangular submatrix (inputs: row range,
column range; fails if range exceeds bounds)".  This is LOOS
`submatrix(A, Math::Range(r1,r2), Math::Range(c1,c2))`, whose source is not
included; the bounds-check side is modelled at each call site. -/
def submatrixRC (p q : ℕ) (A : Matrix (Fin p) (Fin q) ℚ) (r1 r2 c1 c2 : ℕ)
    (hr : r2 ≤ p) (hc : c2 ≤ q) : Matrix (Fin (r2 - r1)) (Fin (c2 - c1)) ℚ :=
  Matrix.of (fun i j =>
    A ⟨r1 + i.val, by have hi := i.isLt; omega⟩ ⟨c1 + j.val, by have hj := j.isLt; omega⟩)

/-- Modelled from the spec: "in-place reversal of ... column order". -/
def reverseColumns (r c : ℕ) (A : Matrix (Fin r) (Fin c) ℚ) : Matrix (Fin r) (Fin c) ℚ :=
  Matrix.of (fun i j => A i (Fin.rev j))

/-- Modelled from the spec: "in-place reversal of row order". -/
def reverseRows (r c : ℕ) (A : Matrix (Fin r) (Fin c) ℚ) : Matrix (Fin r) (Fin c) ℚ :=
  Matrix.of (fun i j => A (Fin.rev i) j)

/-- Modelled from the spec: "permutation of rows ... by an explicit index
list"; row `i` of the result is row `σ i` of the input. -/
def permuteRows (r c : ℕ) (A : Matrix (Fin r) (Fin c) ℚ) (σ : Fin r → Fin r) :
    Matrix (Fin r) (Fin c) ℚ :=
  Matrix.of (fun i j => A (σ i) j)

/-- Modelled from the spec: "permutation of ... columns by an explicit index
list"; column `j` of the result is column `σ j` of the input. -/
def permuteColumns (r c : ℕ) (A : Matrix (Fin r) (Fin c) ℚ) (σ : Fin c → Fin c) :
    Matrix (Fin r) (Fin c) ℚ :=
  Matrix.of (fun i j => A i (σ j))

/-- Modelled from the spec: "column-wise Euclidean normalization (each
column scaled so its norm is 1, sign retained)", with the floating-point
square root abstracted as `sq`. -/
def normalizeColumns (r c : ℕ) (sq : ℚ → ℚ) (A : Matrix (Fin r) (Fin c) ℚ) :
    Matrix (Fin r) (Fin c) ℚ :=
  Matrix.of (fun i j => A i j / sq (∑ i2 : Fin r, A i2 j ^ 2))

/-- Squared Euclidean norm of column `j` of `A`. -/
def colNormSq (r c : ℕ) (A : Matrix (Fin r) (Fin c) ℚ) (j : Fin c) : ℚ :=
  ∑ i : Fin r, A i j ^ 2

/-- Executable determinant by Laplace expansion along the first row
(proved equal to `Matrix.det` below). -/
def detQ : (k : ℕ) → Matrix (Fin k) (Fin k) ℚ → ℚ
  | 0, _ => 1
  | k + 1, A =>
      ∑ j : Fin (k + 1), (-1) ^ (j : ℕ) * A 0 j * detQ k (A.submatrix Fin.succ j.succAbove)

/-- Executable adjugate via the cofactor formula (proved equal to
`Matrix.adjugate` below). -/
def adjQ : (k : ℕ) → Matrix (Fin k) (Fin k) ℚ → Matrix (Fin k) (Fin k) ℚ
  | 0, A => A
  | k + 1, A =>
      Matrix.of (fun i j =>
        (-1) ^ ((j : ℕ) + (i : ℕ)) * detQ k (A.submatrix j.succAbove i.succAbove))

/-- Executable matrix inverse `det⁻¹ • adjugate` (proved equal to the
Mathlib matrix inverse below). -/
def invQ (k : ℕ) (A : Matrix (Fin k) (Fin k) ℚ) : Matrix (Fin k) (Fin k) ℚ :=
  Matrix.of (fun i j => (detQ k A)⁻¹ * adjQ k A i j)

/-- Modelled from the spec: `Math::invert` as used at
"invert Hee (fails fatally if Hee is singular)"; its LOOS source is not
included.  Over the exact rationals a square matrix is singular exactly when
its determinant vanishes. -/
def invertE (k : ℕ) (A : Matrix (Fin k) (Fin k) ℚ) :
    Except VsaError (Matrix (Fin k) (Fin k) ℚ) :=
  if detQ k A = 0 then .error .singularMatrix else .ok (invQ k A)

/-- Modelled from the spec: the key of the "stable sort keyed on eigenvalue"
used by `sortedIndex` — compare eigenvalues, break ties by original index. -/
def sortKey (nn : ℕ) (w : Matrix (Fin nn) (Fin 1) ℚ) (i j : Fin nn) : Bool :=
  decide (w i 0 < w j 0 ∨ (w i 0 = w j 0 ∧ i.val ≤ j.val))

/-- Modelled from the spec: `loos::sortedIndex` — "a stable sort keyed on
eigenvalue" producing the index list that reorders the eigenpairs. -/
def sortedIndex (nn : ℕ) (w : Matrix (Fin nn) (Fin 1) ℚ) : List (Fin nn) :=
  (List.finRange nn).mergeSort (sortKey nn w)

/-- The sorting index list read as a function: position `i` holds the index
`sortPerm nn w i` of the eigenpair placed at position `i`. -/
def sortPerm (nn : ℕ) (w : Matrix (Fin nn) (Fin 1) ℚ) : Fin nn → Fin nn :=
  fun i => (sortedIndex nn w).getD i.val i

/-- The `dsygvx` argument block built by `VSA::eigenDecomp`: problem type 1,
jobz `V`, range `I`, uplo `U`, `il = 7`, `iu = n`, and absolute tolerance
twice the safe-minimum machine constant. -/
def dsygvxArgsOf (bk : Backend) (nn : ℕ) : DsygvxArgs :=
  { itype := 1, jobz := 'V', range := 'I', uplo := 'U',
    vl := 0, vu := 0, il := 7, iu := (nn : ℤ), abstol := 2 * bk.dlamchS }

/-- Embedding of `VSA::eigenDecomp`: copy the inputs, do the two-pass
workspace protocol against `dsygvx`, abort on a nonzero status from either
pass, abort when the eigenpair count differs from `n - 6`, then sort the
eigenvalues and permute the eigenvector columns by the same index list. -/
def eigenDecomp (bk : Backend) (nn : ℕ) (A B : Matrix (Fin nn) (Fin nn) ℚ) :
    Except VsaError (Matrix (Fin nn) (Fin 1) ℚ × Matrix (Fin nn) (Fin nn) ℚ) :=
  let AA := A
  let BB := B
  let args := dsygvxArgsOf bk nn
  let sz := bk.dsygvxSize nn args AA BB
  if sz.1 ≠ 0 then .error (.eigensolve sz.1) else
  let out := bk.dsygvxRun nn args sz.2 AA BB
  if out.info ≠ 0 then .error (.eigensolve out.info) else
  if out.m ≠ (nn : ℤ) - 6 then .error (.eigenpairCount out.m ((nn : ℤ) - 6)) else
  let σ := sortPerm nn out.w
  .ok (permuteRows nn 1 out.w σ, permuteColumns nn nn out.z σ)

/-- The upper triangle (diagonal included) of a square matrix: the part of
the `dpotrf` output buffer that `dtrmm('L','U','N','N')` reads. -/
def upperTri (k : ℕ) (R : Matrix (Fin k) (Fin k) ℚ) : Matrix (Fin k) (Fin k) ℚ :=
  Matrix.of (fun i j => if i ≤ j then R i j else 0)

/-- Embedding of `VSA::massWeight`: Cholesky-factor a copy of `M` with
`dpotrf` (abort on nonzero status), left-multiply a copy of `U` by the upper
triangle of the factor via `dtrmm('L','U','N','N')`, and column-normalize. -/
def massWeight (bk : Backend) (k c : ℕ) (U : Matrix (Fin k) (Fin c) ℚ)
    (M : Matrix (Fin k) (Fin k) ℚ) : Except VsaError (Matrix (Fin k) (Fin c) ℚ) :=
  let R := M
  let pr := bk.dpotrf k R
  if pr.1 ≠ 0 then .error (.choleskyFail pr.1) else
  let UU := U
  .ok (normalizeColumns k c bk.sqrtFn (upperTri k pr.2 * UU))

/-- The subsystem block `Hss = submatrix(H, Range(0,l), Range(0,l))`. -/
def hssBlock (n l : ℕ) (hl : l ≤ n) (H : Matrix (Fin n) (Fin n) ℚ) :
    Matrix (Fin l) (Fin l) ℚ :=
  submatrixRC n n H 0 l 0 l hl hl

/-- The environment block `Hee = submatrix(H, Range(l,n), Range(l,n))`. -/
def heeBlock (n l : ℕ) (hl : l ≤ n) (H : Matrix (Fin n) (Fin n) ℚ) :
    Matrix (Fin (n - l)) (Fin (n - l)) ℚ :=
  submatrixRC n n H l n l n le_rfl le_rfl

/-- The cross block `Hse = submatrix(H, Range(0,l), Range(l,n))`. -/
def hseBlock (n l : ℕ) (hl : l ≤ n) (H : Matrix (Fin n) (Fin n) ℚ) :
    Matrix (Fin l) (Fin (n - l)) ℚ :=
  submatrixRC n n H 0 l l n hl le_rfl

/-- The cross block `Hes = submatrix(H, Range(l,n), Range(0,l))`. -/
def hesBlock (n l : ℕ) (hl : l ≤ n) (H : Matrix (Fin n) (Fin n) ℚ) :
    Matrix (Fin (n - l)) (Fin l) ℚ :=
  submatrixRC n n H l n 0 l le_rfl hl

/-- The subsystem mass block `Ms = submatrix(M, Range(0,l), Range(0,l))`. -/
def msBlock (m l : ℕ) (hlm : l ≤ m) (Mm : Matrix (Fin m) (Fin m) ℚ) :
    Matrix (Fin l) (Fin l) ℚ :=
  submatrixRC m m Mm 0 l 0 l hlm hlm

/-- The environment mass block `Me = submatrix(M, Range(l,n), Range(l,n))`. -/
def meBlock (m n l : ℕ) (hnm : n ≤ m) (hl : l ≤ n) (Mm : Matrix (Fin m) (Fin m) ℚ) :
    Matrix (Fin (n - l)) (Fin (n - l)) ℚ :=
  submatrixRC m m Mm l n l n hnm hnm

/-- The final state of one `VSA::solve` run: the effective Hessian `Hssp_`,
the effective mass matrix `Msp_` (absent on the unit-mass path), and the
eigenpairs `eigenvals_`, `eigenvecs_`. -/
structure SolveOut (s : ℕ) where
  hssp : Matrix (Fin (3 * s)) (Fin (3 * s)) ℚ
  msp : Option (Matrix (Fin (3 * s)) (Fin (3 * s)) ℚ)
  eigenvals : Matrix (Fin (3 * s)) (Fin 1) ℚ
  eigenvecs : Matrix (Fin (3 * s)) (Fin (3 * s)) ℚ

/-- Embedding of `VSA::solve` after the Hessian build (the Hessian builder is
a collaborator per the specification; `hessian` is its output, `n` its column
count, and `l = 3 * s` with `s` the caller's `subset_size_`).  The mass
matrix, when supplied, has its own side `m` so that a size mismatch with the
Hessian is representable.  Steps: partition at `l` (the submatrix primitive
fails when a range exceeds the bounds), invert `Hee`, form the Schur
complement `Hssp`, then branch: with no masses take the SVD of `Hssp` and
reverse its column/row order; with masses form `Msp`, run `eigenDecomp` on
`(Hssp, Msp)` and mass-weight the eigenvectors against `Msp`. -/
def solveE (n s : ℕ) (hessian : Matrix (Fin n) (Fin n) ℚ)
    (masses : Option ((m : ℕ) × Matrix (Fin m) (Fin m) ℚ)) (bk : Backend) :
    Except VsaError (SolveOut s) :=
  if hl : 3 * s ≤ n then
    let Hss := hssBlock n (3 * s) hl hessian
    let Hee := heeBlock n (3 * s) hl hessian
    let Hse := hseBlock n (3 * s) hl hessian
    let Hes := hesBlock n (3 * s) hl hessian
    match invertE (n - 3 * s) Hee with
    | .error e => .error e
    | .ok Heei =>
      let Hssp := Hss - Hse * Heei * Hes
      match masses with
      | none =>
        let res := bk.svd (3 * s) Hssp
        .ok ⟨Hssp, none, reverseRows (3 * s) 1 res.2.1, reverseColumns (3 * s) (3 * s) res.1⟩
      | some ⟨m, Mm⟩ =>
        if hm : n ≤ m then
          let Ms := msBlock m (3 * s) (le_trans hl hm) Mm
          let Me := meBlock m n (3 * s) hm hl Mm
          let Msp := Ms + Hse * Heei * Me * Heei * Hes
          match eigenDecomp bk (3 * s) Hssp Msp with
          | .error e => .error e
          | .ok wz =>
            match massWeight bk (3 * s) (3 * s) wz.2 Msp with
            | .error e => .error e
            | .ok evecs => .ok ⟨Hssp, some Msp, wz.1, evecs⟩
        else .error .submatrixBounds
  else .error .submatrixBounds

/-- Embedding of `VSA::eigenDecomp` with the reference semantics of its arguments made
explicit.  `loos::DoubleMatrix` hands out shared buffers; the heap `h` holds
the buffers, `rA` and `rB` are the caller's references.  `AA = A.copy()` and
`BB = B.copy()` allocate fresh buffers at the end of the heap; `dsygvx`
overwrites the buffers it is passed (`AA`, `BB`, `Z`); the result is the
eigenvalue buffer together with the reference to the permuted `Z`. -/
def eigenDecompHeap (bk : Backend) (nn : ℕ) (h : List (Matrix (Fin nn) (Fin nn) ℚ))
    (rA rB : ℕ) :
    List (Matrix (Fin nn) (Fin nn) ℚ) × Except VsaError (Matrix (Fin nn) (Fin 1) ℚ × ℕ) :=
  match h[rA]?, h[rB]? with
  | some A, some B =>
    let rAA := h.length
    let h1 := h ++ [A]
    let rBB := h1.length
    let h2 := h1 ++ [B]
    let args := dsygvxArgsOf bk nn
    let sz := bk.dsygvxSize nn args A B
    if sz.1 ≠ 0 then (h2, .error (.eigensolve sz.1)) else
    let out := bk.dsygvxRun nn args sz.2 A B
    let rZ := h2.length
    let h3 := h2 ++ [out.z]
    let h4 := (h3.set rAA out.aOut).set rBB out.bOut
    if out.info ≠ 0 then (h4, .error (.eigensolve out.info)) else
    if out.m ≠ (nn : ℤ) - 6 then (h4, .error (.eigenpairCount out.m ((nn : ℤ) - 6))) else
    let σ := sortPerm nn out.w
    let h5 := h4.set rZ (permuteColumns nn nn (h4.getD rZ out.z) σ)
    (h5, .ok (permuteRows nn 1 out.w σ, rZ))
  | _, _ => (h, .error .submatrixBounds)

/-- Embedding of `VSA::massWeight` with the reference semantics of its arguments made
explicit.  Square buffers (`M`, `R`) live in `hs`, rectangular buffers
(`U`, `UU`) in `hr`.  `R = M.copy()` allocates a fresh square buffer which
`dpotrf` overwrites; `UU = U.copy()` allocates a fresh rectangular buffer
which `dtrmm` and then `normalizeColumns` overwrite in place. -/
def massWeightHeap (bk : Backend) (k c : ℕ) (hs : List (Matrix (Fin k) (Fin k) ℚ))
    (hr : List (Matrix (Fin k) (Fin c) ℚ)) (rU rM : ℕ) :
    (List (Matrix (Fin k) (Fin k) ℚ) × List (Matrix (Fin k) (Fin c) ℚ)) × Except VsaError ℕ :=
  match hs[rM]?, hr[rU]? with
  | some M, some U =>
    let rR := hs.length
    let hs1 := hs ++ [M]
    let pr := bk.dpotrf k M
    let hs2 := hs1.set rR pr.2
    if pr.1 ≠ 0 then ((hs2, hr), .error (.choleskyFail pr.1)) else
    let rUU := hr.length
    let hr1 := hr ++ [U]
    let hr2 := hr1.set rUU (upperTri k pr.2 * U)
    let hr3 := hr2.set rUU (normalizeColumns k c bk.sqrtFn (hr2.getD rUU U))
    ((hs2, hr3), .ok rUU)
  | _, _ => ((hs, hr), .error .submatrixBounds)

/-- Embedding into the subsystem: index `i` of the "first `l` rows/cols". -/
def finLower (n l : ℕ) (hl : l ≤ n) (i : Fin l) : Fin n :=
  Fin.castLE hl i

/-- Embedding into the environment: index `i` of the "remaining rows/cols". -/
def finUpper (n l : ℕ) (hl : l ≤ n) (i : Fin (n - l)) : Fin n :=
  ⟨l + i.val, by have hi := i.isLt; omega⟩

/-- The spec's subsystem block: "first `l = 3*subset_size` rows/cols". -/
def specHss (n l : ℕ) (hl : l ≤ n) (H : Matrix (Fin n) (Fin n) ℚ) :
    Matrix (Fin l) (Fin l) ℚ :=
  Matrix.of (fun i j => H (finLower n l hl i) (finLower n l hl j))

/-- The spec's environment block: "remaining rows/cols". -/
def specHee (n l : ℕ) (hl : l ≤ n) (H : Matrix (Fin n) (Fin n) ℚ) :
    Matrix (Fin (n - l)) (Fin (n - l)) ℚ :=
  Matrix.of (fun i j => H (finUpper n l hl i) (finUpper n l hl j))

/-- The spec's subsystem-to-environment cross block. -/
def specHse (n l : ℕ) (hl : l ≤ n) (H : Matrix (Fin n) (Fin n) ℚ) :
    Matrix (Fin l) (Fin (n - l)) ℚ :=
  Matrix.of (fun i j => H (finLower n l hl i) (finUpper n l hl j))

/-- The spec's environment-to-subsystem cross block. -/
def specHes (n l : ℕ) (hl : l ≤ n) (H : Matrix (Fin n) (Fin n) ℚ) :
    Matrix (Fin (n - l)) (Fin l) ℚ :=
  Matrix.of (fun i j => H (finUpper n l hl i) (finLower n l hl j))

/-- The spec's effective Hessian, written from its words: the Schur
complement "Hssp = Hss − Hse·Hee⁻¹·Hes", with the Mathlib matrix inverse. -/
noncomputable def specSchur (n l : ℕ) (hl : l ≤ n) (H : Matrix (Fin n) (Fin n) ℚ) :
    Matrix (Fin l) (Fin l) ℚ :=
  specHss n l hl H - specHse n l hl H * (specHee n l hl H)⁻¹ * specHes n l hl H

/-- The spec's effective mass matrix, written from its words:
"Msp = Ms + Hse·Hee⁻¹·Me·Hee⁻¹·Hes" with `Ms`, `Me` the subsystem and
environment blocks of the mass matrix, and the Mathlib matrix inverse. -/
noncomputable def specMsp (n l m : ℕ) (hl : l ≤ n) (hnm : n ≤ m)
    (H : Matrix (Fin n) (Fin n) ℚ) (Mm : Matrix (Fin m) (Fin m) ℚ) :
    Matrix (Fin l) (Fin l) ℚ :=
  Matrix.of (fun i j => Mm (finLower m l (le_trans hl hnm) i) (finLower m l (le_trans hl hnm) j)) +
    specHse n l hl H * (specHee n l hl H)⁻¹ *
      (Matrix.of (fun i j => Mm (Fin.castLE hnm (finUpper n l hl i)) (Fin.castLE hnm (finUpper n l hl j)))) *
      (specHee n l hl H)⁻¹ * specHes n l hl H

/-- The code's effective Hessian, assembled from the code-side blocks and the
executable inverse: what `Hssp_` holds after a successful partition and
inversion. -/
def hsspOf (n s : ℕ) (hl : 3 * s ≤ n) (H : Matrix (Fin n) (Fin n) ℚ) :
    Matrix (Fin (3 * s)) (Fin (3 * s)) ℚ :=
  hssBlock n (3 * s) hl H -
    hseBlock n (3 * s) hl H * invQ (n - 3 * s) (heeBlock n (3 * s) hl H) *
      hesBlock n (3 * s) hl H

/-- The code's effective mass matrix, assembled from the code-side blocks and
the executable inverse: what `Msp_` holds on the mass path. -/
def mspOf (n s m : ℕ) (hl : 3 * s ≤ n) (hnm : n ≤ m)
    (H : Matrix (Fin n) (Fin n) ℚ) (Mm : Matrix (Fin m) (Fin m) ℚ) :
    Matrix (Fin (3 * s)) (Fin (3 * s)) ℚ :=
  msBlock m (3 * s) (le_trans hl hnm) Mm +
    hseBlock n (3 * s) hl H * invQ (n - 3 * s) (heeBlock n (3 * s) hl H) *
      meBlock m n (3 * s) hnm hl Mm * invQ (n - 3 * s) (heeBlock n (3 * s) hl H) *
      hesBlock n (3 * s) hl H

/-- A benign backend fixture for concrete runs: sizing succeeds, the solver
reports `m = n - 6` with zero eigenvalues and identity eigenvectors, the SVD
returns identity factors, the Cholesky factorization succeeds returning its
input buffer, and the square-root oracle is exact on the values reached in
the concrete runs below. -/
def bkTriv : Backend where
  dlamchS := 0
  dsygvxSize := fun _ _ _ _ => (0, 0)
  dsygvxRun := fun nn _ _ _ _ =>
    { info := 0, m := (nn : ℤ) - 6, w := 0, z := 1, aOut := 0, bOut := 0 }
  svd := fun _ _ => (1, 0, 1)
  dpotrf := fun _ M => (0, M)
  sqrtFn := fun q => if q = 9 then 3 else 1

/-- A failing backend fixture: the workspace-sizing call reports status 1. -/
def bkBad : Backend where
  dlamchS := 0
  dsygvxSize := fun _ _ _ _ => (1, 0)
  dsygvxRun := fun nn _ _ _ _ =>
    { info := 0, m := (nn : ℤ) - 6, w := 0, z := 1, aOut := 0, bOut := 0 }
  svd := fun _ _ => (1, 0, 1)
  dpotrf := fun _ M => (0, M)
  sqrtFn := fun _ => 1

/-- Concrete output of the unit-mass (SVD) run on the 3-coordinate identity
Hessian with an empty environment, used by witnesses. -/
def outSvdW : SolveOut 1 :=
  ⟨hsspOf 3 1 (by decide) 1, none,
    reverseRows 3 1 (bkTriv.svd 3 (hsspOf 3 1 (by decide) 1)).2.1,
    reverseColumns 3 3 (bkTriv.svd 3 (hsspOf 3 1 (by decide) 1)).1⟩

/-- A 1-by-1 test matrix holding the value 3, used by witnesses. -/
def U3 : Matrix (Fin 1) (Fin 1) ℚ :=
  Matrix.of (fun _ _ => 3)

theorem detQ_eq_det : ∀ (k : ℕ) (A : Matrix (Fin k) (Fin k) ℚ), detQ k A = A.det
  | 0, A => by simp [detQ, Matrix.det_fin_zero]
  | k + 1, A => by
      rw [Matrix.det_succ_row_zero, detQ]
      exact Finset.sum_congr rfl fun j _ => by rw [detQ_eq_det k]

theorem adjQ_eq_adjugate : ∀ (k : ℕ) (A : Matrix (Fin k) (Fin k) ℚ),
    adjQ k A = Matrix.adjugate A
  | 0, A => Matrix.ext fun i => i.elim0
  | k + 1, A => by
      ext i j
      rw [adjQ, Matrix.of_apply, detQ_eq_det, Matrix.adjugate_fin_succ_eq_det_submatrix]

theorem invQ_eq_inv (k : ℕ) (A : Matrix (Fin k) (Fin k) ℚ) : invQ k A = A⁻¹ := by
  rw [Matrix.inv_def, Ring.inverse_eq_inv']
  ext i j
  rw [invQ, Matrix.of_apply, Matrix.smul_apply, adjQ_eq_adjugate, detQ_eq_det, smul_eq_mul]

theorem hssBlock_eq_spec (n l : ℕ) (hl : l ≤ n) (H : Matrix (Fin n) (Fin n) ℚ) :
    hssBlock n l hl H = specHss n l hl H := by
  ext i j
  simp only [hssBlock, submatrixRC, Matrix.of_apply, specHss, finLower]
  congr 1 <;> exact Fin.ext (Nat.zero_add _)

theorem heeBlock_eq_spec (n l : ℕ) (hl : l ≤ n) (H : Matrix (Fin n) (Fin n) ℚ) :
    heeBlock n l hl H = specHee n l hl H :=
  rfl

theorem hseBlock_eq_spec (n l : ℕ) (hl : l ≤ n) (H : Matrix (Fin n) (Fin n) ℚ) :
    hseBlock n l hl H = specHse n l hl H := by
  ext i j
  simp only [hseBlock, submatrixRC, Matrix.of_apply, specHse, finLower, finUpper]
  congr 1
  exact Fin.ext (Nat.zero_add _)

theorem hesBlock_eq_spec (n l : ℕ) (hl : l ≤ n) (H : Matrix (Fin n) (Fin n) ℚ) :
    hesBlock n l hl H = specHes n l hl H := by
  ext i j
  simp only [hesBlock, submatrixRC, Matrix.of_apply, specHes, finLower, finUpper]
  congr 1
  exact Fin.ext (Nat.zero_add _)

theorem hsspOf_eq_specSchur (n s : ℕ) (hl : 3 * s ≤ n) (H : Matrix (Fin n) (Fin n) ℚ) :
    hsspOf n s hl H = specSchur n (3 * s) hl H := by
  rw [hsspOf, specSchur, hssBlock_eq_spec, hseBlock_eq_spec, hesBlock_eq_spec,
    heeBlock_eq_spec, invQ_eq_inv]

theorem mspOf_eq_specMsp (n s m : ℕ) (hl : 3 * s ≤ n) (hnm : n ≤ m)
    (H : Matrix (Fin n) (Fin n) ℚ) (Mm : Matrix (Fin m) (Fin m) ℚ) :
    mspOf n s m hl hnm H Mm = specMsp n (3 * s) m hl hnm H Mm := by
  rw [mspOf, specMsp, hseBlock_eq_spec, hesBlock_eq_spec, heeBlock_eq_spec, invQ_eq_inv]
  congr 1
  ext i j
  simp only [msBlock, submatrixRC, Matrix.of_apply, finLower]
  congr 1 <;> exact Fin.ext (Nat.zero_add _)

theorem sortedIndex_length (nn : ℕ) (w : Matrix (Fin nn) (Fin 1) ℚ) :
    (sortedIndex nn w).length = nn := by
  rw [sortedIndex, List.length_mergeSort, List.length_finRange]

theorem sortedIndex_nodup (nn : ℕ) (w : Matrix (Fin nn) (Fin 1) ℚ) :
    (sortedIndex nn w).Nodup :=
  ((List.mergeSort_perm (List.finRange nn) (sortKey nn w)).nodup_iff).mpr
    (List.nodup_finRange nn)

theorem sortKey_trans (nn : ℕ) (w : Matrix (Fin nn) (Fin 1) ℚ) :
    ∀ a b c : Fin nn, sortKey nn w a b = true → sortKey nn w b c = true →
      sortKey nn w a c = true := by
  intro a b c hab hbc
  simp only [sortKey, decide_eq_true_eq] at hab hbc ⊢
  rcases hab with h1 | ⟨h1, h1'⟩ <;> rcases hbc with h2 | ⟨h2, h2'⟩
  · exact Or.inl (lt_trans h1 h2)
  · exact Or.inl (by rw [← h2]; exact h1)
  · exact Or.inl (by rw [h1]; exact h2)
  · exact Or.inr ⟨h1.trans h2, le_trans h1' h2'⟩

theorem sortKey_total (nn : ℕ) (w : Matrix (Fin nn) (Fin 1) ℚ) :
    ∀ a b : Fin nn, (sortKey nn w a b || sortKey nn w b a) = true := by
  intro a b
  simp only [sortKey, Bool.or_eq_true, decide_eq_true_eq]
  rcases lt_trichotomy (w a 0) (w b 0) with h | h | h
  · exact Or.inl (Or.inl h)
  · rcases Nat.le_total a.val b.val with h' | h'
    · exact Or.inl (Or.inr ⟨h, h'⟩)
    · exact Or.inr (Or.inr ⟨h.symm, h'⟩)
  · exact Or.inr (Or.inl h)

theorem sortedIndex_pairwise (nn : ℕ) (w : Matrix (Fin nn) (Fin 1) ℚ) :
    (sortedIndex nn w).Pairwise (fun a b => sortKey nn w a b = true) :=
  List.sorted_mergeSort (sortKey_trans nn w) (sortKey_total nn w) (List.finRange nn)

theorem sortPerm_eq_get (nn : ℕ) (w : Matrix (Fin nn) (Fin 1) ℚ) (i : Fin nn) :
    sortPerm nn w i =
      (sortedIndex nn w).get ⟨i.val, by rw [sortedIndex_length]; exact i.isLt⟩ := by
  rw [sortPerm, List.getD_eq_getElem _ _ (by rw [sortedIndex_length]; exact i.isLt),
    List.get_eq_getElem]

theorem sortPerm_injective (nn : ℕ) (w : Matrix (Fin nn) (Fin 1) ℚ) :
    Function.Injective (sortPerm nn w) := by
  intro i j hij
  rw [sortPerm_eq_get, sortPerm_eq_get] at hij
  have h2 := (List.Nodup.get_inj_iff (sortedIndex_nodup nn w)).mp hij
  have h3 : i.val = j.val := by simpa using congrArg Fin.val h2
  exact Fin.ext h3

theorem sortPerm_bijective (nn : ℕ) (w : Matrix (Fin nn) (Fin 1) ℚ) :
    Function.Bijective (sortPerm nn w) :=
  Finite.injective_iff_bijective.mp (sortPerm_injective nn w)

theorem sortPerm_stable (nn : ℕ) (w : Matrix (Fin nn) (Fin 1) ℚ) (i j : Fin nn)
    (hij : i < j) :
    w (sortPerm nn w i) 0 < w (sortPerm nn w j) 0 ∨
      (w (sortPerm nn w i) 0 = w (sortPerm nn w j) 0 ∧ sortPerm nn w i < sortPerm nn w j) := by
  have hp := (List.pairwise_iff_get).mp (sortedIndex_pairwise nn w)
  have hkey := hp ⟨i.val, by rw [sortedIndex_length]; exact i.isLt⟩
    ⟨j.val, by rw [sortedIndex_length]; exact j.isLt⟩ (Fin.mk_lt_mk.mpr hij)
  rw [← sortPerm_eq_get, ← sortPerm_eq_get] at hkey
  have hne : sortPerm nn w i ≠ sortPerm nn w j := fun h =>
    absurd (sortPerm_injective nn w h) (ne_of_lt hij)
  simp only [sortKey, decide_eq_true_eq] at hkey
  rcases hkey with h | ⟨h1, h2⟩
  · exact Or.inl h
  · refine Or.inr ⟨h1, ?_⟩
    exact lt_of_le_of_ne (Fin.le_def.mpr h2) hne

theorem sortPerm_mono (nn : ℕ) (w : Matrix (Fin nn) (Fin 1) ℚ) (i j : Fin nn)
    (h : i ≤ j) : w (sortPerm nn w i) 0 ≤ w (sortPerm nn w j) 0 := by
  rcases lt_or_eq_of_le h with h' | h'
  · rcases sortPerm_stable nn w i j h' with hlt | ⟨heq, _⟩
    · exact le_of_lt hlt
    · exact le_of_eq heq
  · rw [h']

theorem solveE_not_le (n s : ℕ) (H : Matrix (Fin n) (Fin n) ℚ)
    (masses : Option ((m : ℕ) × Matrix (Fin m) (Fin m) ℚ)) (bk : Backend)
    (h : ¬ 3 * s ≤ n) : solveE n s H masses bk = .error .submatrixBounds := by
  simp only [solveE]
  rw [dif_neg h]

theorem solveE_det_zero (n s : ℕ) (H : Matrix (Fin n) (Fin n) ℚ)
    (masses : Option ((m : ℕ) × Matrix (Fin m) (Fin m) ℚ)) (bk : Backend)
    (hl : 3 * s ≤ n) (hdet : detQ (n - 3 * s) (heeBlock n (3 * s) hl H) = 0) :
    solveE n s H masses bk = .error .singularMatrix := by
  simp only [solveE]
  rw [dif_pos hl]
  simp only [invertE]
  rw [if_pos hdet]

theorem solveE_svd_eq (n s : ℕ) (H : Matrix (Fin n) (Fin n) ℚ) (bk : Backend)
    (hl : 3 * s ≤ n) (hdet : detQ (n - 3 * s) (heeBlock n (3 * s) hl H) ≠ 0) :
    solveE n s H none bk =
      .ok ⟨hsspOf n s hl H, none,
        reverseRows (3 * s) 1 (bk.svd (3 * s) (hsspOf n s hl H)).2.1,
        reverseColumns (3 * s) (3 * s) (bk.svd (3 * s) (hsspOf n s hl H)).1⟩ := by
  simp only [solveE]
  rw [dif_pos hl]
  simp only [invertE]
  rw [if_neg hdet]
  rfl

theorem solveE_mass_small (n s m : ℕ) (H : Matrix (Fin n) (Fin n) ℚ)
    (Mm : Matrix (Fin m) (Fin m) ℚ) (bk : Backend)
    (hl : 3 * s ≤ n) (hdet : detQ (n - 3 * s) (heeBlock n (3 * s) hl H) ≠ 0)
    (hnm : ¬ n ≤ m) :
    solveE n s H (some ⟨m, Mm⟩) bk = .error .submatrixBounds := by
  simp only [solveE]
  rw [dif_pos hl]
  simp only [invertE]
  rw [if_neg hdet]
  simp only []
  rw [dif_neg hnm]

theorem solveE_mass_eq (n s m : ℕ) (H : Matrix (Fin n) (Fin n) ℚ)
    (Mm : Matrix (Fin m) (Fin m) ℚ) (bk : Backend)
    (hl : 3 * s ≤ n) (hdet : detQ (n - 3 * s) (heeBlock n (3 * s) hl H) ≠ 0)
    (hnm : n ≤ m) :
    solveE n s H (some ⟨m, Mm⟩) bk =
      match eigenDecomp bk (3 * s) (hsspOf n s hl H) (mspOf n s m hl hnm H Mm) with
      | .error e => .error e
      | .ok wz =>
        match massWeight bk (3 * s) (3 * s) wz.2 (mspOf n s m hl hnm H Mm) with
        | .error e => .error e
        | .ok evecs =>
            .ok ⟨hsspOf n s hl H, some (mspOf n s m hl hnm H Mm), wz.1, evecs⟩ := by
  simp only [solveE]
  rw [dif_pos hl]
  simp only [invertE]
  rw [if_neg hdet]
  simp only []
  rw [dif_pos hnm]
  rfl

theorem solveE_ok_le (n s : ℕ) (H : Matrix (Fin n) (Fin n) ℚ)
    (masses : Option ((m : ℕ) × Matrix (Fin m) (Fin m) ℚ)) (bk : Backend)
    (out : SolveOut s) (hok : solveE n s H masses bk = .ok out) : 3 * s ≤ n := by
  by_contra h
  rw [solveE_not_le n s H masses bk h] at hok
  exact absurd hok (by simp)

theorem solveE_ok_det (n s : ℕ) (H : Matrix (Fin n) (Fin n) ℚ)
    (masses : Option ((m : ℕ) × Matrix (Fin m) (Fin m) ℚ)) (bk : Backend)
    (out : SolveOut s) (hl : 3 * s ≤ n) (hok : solveE n s H masses bk = .ok out) :
    detQ (n - 3 * s) (heeBlock n (3 * s) hl H) ≠ 0 := by
  intro hdet
  rw [solveE_det_zero n s H masses bk hl hdet] at hok
  exact absurd hok (by simp)

theorem solveE_mass_ok_nm (n s m : ℕ) (H : Matrix (Fin n) (Fin n) ℚ)
    (Mm : Matrix (Fin m) (Fin m) ℚ) (bk : Backend) (out : SolveOut s)
    (hl : 3 * s ≤ n) (hdet : detQ (n - 3 * s) (heeBlock n (3 * s) hl H) ≠ 0)
    (hok : solveE n s H (some ⟨m, Mm⟩) bk = .ok out) : n ≤ m := by
  by_contra h
  rw [solveE_mass_small n s m H Mm bk hl hdet h] at hok
  exact absurd hok (by simp)

/-- C1: in `VSA::solve`, the Hessian is partitioned at the caller-fixed
boundary `l = 3*subset_size` into `Hss` (first `l` rows/cols), `Hee`
(remaining rows/cols) and the two cross blocks, and the stored effective
Hessian `Hssp_` equals the Schur complement `Hss − Hse·Hee⁻¹·Hes` (stated
against `specSchur`, which is written from the spec's words with the Mathlib
matrix inverse). -/
theorem vsa_solve_schur_complement (n s : ℕ) (H : Matrix (Fin n) (Fin n) ℚ)
    (masses : Option ((m : ℕ) × Matrix (Fin m) (Fin m) ℚ)) (bk : Backend)
    (out : SolveOut s) (hl : 3 * s ≤ n) (hok : solveE n s H masses bk = .ok out) :
    out.hssp = specSchur n (3 * s) hl H := by
  have hdet := solveE_ok_det n s H masses bk out hl hok
  cases masses with
  | none =>
      rw [solveE_svd_eq n s H bk hl hdet] at hok
      have h2 := Except.ok.inj hok
      rw [← h2]
      exact hsspOf_eq_specSchur n s hl H
  | some p =>
      obtain ⟨m, Mm⟩ := p
      have hnm := solveE_mass_ok_nm n s m H Mm bk out hl hdet hok
      rw [solveE_mass_eq n s m H Mm bk hl hdet hnm] at hok
      cases heig : eigenDecomp bk (3 * s) (hsspOf n s hl H) (mspOf n s m hl hnm H Mm) with
      | error e => rw [heig] at hok; simp at hok
      | ok wz =>
          rw [heig] at hok
          simp only [] at hok
          cases hmw : massWeight bk (3 * s) (3 * s) wz.2 (mspOf n s m hl hnm H Mm) with
          | error e => rw [hmw] at hok; simp at hok
          | ok evecs =>
              rw [hmw] at hok
              have h2 := Except.ok.inj hok
              rw [← h2]
              exact hsspOf_eq_specSchur n s hl H

theorem vsa_solve_schur_complement_witness :
    3 * 1 ≤ 3 ∧
    solveE 3 1 1 none bkTriv = .ok outSvdW ∧
    outSvdW.hssp = specSchur 3 (3 * 1) (by decide) (1 : Matrix (Fin 3) (Fin 3) ℚ) :=
  ⟨by decide, solveE_svd_eq 3 1 1 bkTriv (by decide) (by decide),
    vsa_solve_schur_complement 3 1 1 none bkTriv outSvdW (by decide)
      (solveE_svd_eq 3 1 1 bkTriv (by decide) (by decide))⟩

/-- C5: with no masses supplied, `VSA::solve` takes the SVD of the effective
Hessian, uses the left singular vectors as eigenvectors and the singular
values as eigenvalues — each with column/row order reversed — and finishes
without computing any mass matrix (`Msp_` stays unset). -/
theorem vsa_solve_svd_path (n s : ℕ) (H : Matrix (Fin n) (Fin n) ℚ) (bk : Backend)
    (out : SolveOut s) (hok : solveE n s H none bk = .ok out) :
    out.msp = none ∧
    out.eigenvecs = reverseColumns (3 * s) (3 * s) (bk.svd (3 * s) out.hssp).1 ∧
    out.eigenvals = reverseRows (3 * s) 1 (bk.svd (3 * s) out.hssp).2.1 := by
  have hl := solveE_ok_le n s H none bk out hok
  have hdet := solveE_ok_det n s H none bk out hl hok
  rw [solveE_svd_eq n s H bk hl hdet] at hok
  have h2 := Except.ok.inj hok
  rw [← h2]
  exact ⟨rfl, rfl, rfl⟩

theorem vsa_solve_svd_path_witness :
    solveE 3 1 1 none bkTriv = .ok outSvdW ∧
    outSvdW.msp = none ∧
    outSvdW.eigenvecs = reverseColumns (3 * 1) (3 * 1) (bkTriv.svd (3 * 1) outSvdW.hssp).1 ∧
    outSvdW.eigenvals = reverseRows (3 * 1) 1 (bkTriv.svd (3 * 1) outSvdW.hssp).2.1 :=
  ⟨solveE_svd_eq 3 1 1 bkTriv (by decide) (by decide),
    vsa_solve_svd_path 3 1 1 bkTriv outSvdW
      (solveE_svd_eq 3 1 1 bkTriv (by decide) (by decide))⟩

/-- C8: inverting the environment block during `VSA::solve` fails with
`SingularMatrixError` whenever `Hee` is singular (zero determinant); in
particular an entirely zero environment block (with a nonempty environment)
makes the solve return that error instead of a silently wrong result. -/
theorem vsa_solve_singular_env (n s : ℕ) (H : Matrix (Fin n) (Fin n) ℚ)
    (masses : Option ((m : ℕ) × Matrix (Fin m) (Fin m) ℚ)) (bk : Backend)
    (hl : 3 * s ≤ n) :
    (detQ (n - 3 * s) (heeBlock n (3 * s) hl H) = 0 →
      solveE n s H masses bk = .error .singularMatrix) ∧
    (3 * s < n → (∀ i j, heeBlock n (3 * s) hl H i j = 0) →
      solveE n s H masses bk = .error .singularMatrix) := by
  constructor
  · intro hdet
    exact solveE_det_zero n s H masses bk hl hdet
  · intro hlt hzero
    have hEee : heeBlock n (3 * s) hl H = 0 := Matrix.ext hzero
    have hne : Nonempty (Fin (n - 3 * s)) := ⟨⟨0, by omega⟩⟩
    have hdet : detQ (n - 3 * s) (heeBlock n (3 * s) hl H) = 0 := by
      rw [detQ_eq_det, hEee, Matrix.det_zero hne]
    exact solveE_det_zero n s H masses bk hl hdet

theorem vsa_solve_singular_env_witness :
    3 * 1 ≤ 4 ∧ 3 * 1 < 4 ∧
    (∀ i j, heeBlock 4 (3 * 1) (by decide) (0 : Matrix (Fin 4) (Fin 4) ℚ) i j = 0) ∧
    solveE 4 1 0 none bkTriv = .error .singularMatrix :=
  ⟨by decide, by decide, by decide,
    (vsa_solve_singular_env 4 1 0 none bkTriv (by decide)).2 (by decide) (by decide)⟩

/-- C9 counterexample: on an input whose boundary `l = 3*subset_size = 6`
exceeds `N = 3`, `VSA::solve` does not reject with a `ConfigurationError`;
it fails with the submatrix bounds error raised while partitioning. -/
theorem vsa_solve_no_config_check_cex :
    solveE 3 2 0 none bkTriv = .error .submatrixBounds ∧
    solveE 3 2 0 none bkTriv ≠ .error .configuration := by
  have h := solveE_not_le 3 2 0 none bkTriv (by decide)
  refine ⟨h, ?_⟩
  rw [h]
  intro hc
  exact absurd (Except.error.inj hc) (by decide)

/-- C9 amended: `VSA::solve` performs no caller-input pre-validation and has
no `ConfigurationError`: a boundary with `3*subset_size > N` only fails at
the submatrix bounds check during partitioning (after the Hessian is built),
and an undersized mass matrix only fails at the submatrix bounds check when
the mass blocks are extracted (after partitioning and inversion). -/
theorem vsa_solve_no_prevalidation (n s m : ℕ) (H : Matrix (Fin n) (Fin n) ℚ)
    (Mm : Matrix (Fin m) (Fin m) ℚ)
    (masses : Option ((m2 : ℕ) × Matrix (Fin m2) (Fin m2) ℚ)) (bk : Backend) :
    (¬ 3 * s ≤ n → solveE n s H masses bk = .error .submatrixBounds) ∧
    (∀ hl : 3 * s ≤ n, detQ (n - 3 * s) (heeBlock n (3 * s) hl H) ≠ 0 → ¬ n ≤ m →
      solveE n s H (some ⟨m, Mm⟩) bk = .error .submatrixBounds) := by
  constructor
  · intro h
    exact solveE_not_le n s H masses bk h
  · intro hl hdet hnm
    exact solveE_mass_small n s m H Mm bk hl hdet hnm

theorem vsa_solve_no_prevalidation_witness :
    ¬ 3 * 2 ≤ 3 ∧
    solveE 3 2 0 none bkTriv = .error .submatrixBounds ∧
    ¬ 3 ≤ 2 ∧
    solveE 3 1 (1 : Matrix (Fin 3) (Fin 3) ℚ)
      (some ⟨2, (1 : Matrix (Fin 2) (Fin 2) ℚ)⟩) bkTriv = .error .submatrixBounds :=
  ⟨by decide,
    (vsa_solve_no_prevalidation 3 2 2 0 1 none bkTriv).1 (by decide),
    by decide,
    (vsa_solve_no_prevalidation 3 1 2 1 1 none bkTriv).2 (by decide) (by decide) (by decide)⟩

/-- C2: `VSA::eigenDecomp` asks the generalized symmetric eigensolver for
exactly the eigenpairs indexed 7 through N (1-indexed, `range = I`,
`il = 7`, `iu = N`), excluding the 6 trivial rigid-body modes, and whenever
it returns a result the count of eigenpairs the solver produced is exactly
`N - 6`. -/
theorem vsa_eigenDecomp_requested_range (bk : Backend) (nn : ℕ)
    (A B : Matrix (Fin nn) (Fin nn) ℚ) (W : Matrix (Fin nn) (Fin 1) ℚ)
    (Z : Matrix (Fin nn) (Fin nn) ℚ) (hok : eigenDecomp bk nn A B = .ok (W, Z)) :
    (dsygvxArgsOf bk nn).range = 'I' ∧
    (dsygvxArgsOf bk nn).il = 7 ∧
    (dsygvxArgsOf bk nn).iu = (nn : ℤ) ∧
    (bk.dsygvxRun nn (dsygvxArgsOf bk nn)
      (bk.dsygvxSize nn (dsygvxArgsOf bk nn) A B).2 A B).m = (nn : ℤ) - 6 := by
  simp only [eigenDecomp] at hok
  split_ifs at hok with h1 h2 h3
  push_neg at h3
  exact ⟨rfl, rfl, rfl, h3⟩

theorem vsa_eigenDecomp_requested_range_witness :
    eigenDecomp bkTriv 7 1 1 =
      .ok (permuteRows 7 1 0 (sortPerm 7 0), permuteColumns 7 7 1 (sortPerm 7 0)) ∧
    (dsygvxArgsOf bkTriv 7).range = 'I' ∧
    (dsygvxArgsOf bkTriv 7).il = 7 ∧
    (dsygvxArgsOf bkTriv 7).iu = (7 : ℤ) ∧
    (bkTriv.dsygvxRun 7 (dsygvxArgsOf bkTriv 7)
      (bkTriv.dsygvxSize 7 (dsygvxArgsOf bkTriv 7) 1 1).2 1 1).m = (7 : ℤ) - 6 := by
  have h := vsa_eigenDecomp_requested_range bkTriv 7 1 1
    (permuteRows 7 1 0 (sortPerm 7 0)) (permuteColumns 7 7 1 (sortPerm 7 0)) rfl
  exact ⟨rfl, h⟩

/-- C6: whenever `VSA::eigenDecomp` returns, the eigenvalues it hands back
are in ascending order, obtained by the stable sort keyed on eigenvalue
(ties keep their original relative order), and the eigenvector columns are
permuted by exactly the same permutation as the eigenvalue rows. -/
theorem vsa_eigenDecomp_sorted_stable (bk : Backend) (nn : ℕ)
    (A B : Matrix (Fin nn) (Fin nn) ℚ) (W : Matrix (Fin nn) (Fin 1) ℚ)
    (Z : Matrix (Fin nn) (Fin nn) ℚ) (hok : eigenDecomp bk nn A B = .ok (W, Z)) :
    (∀ i j : Fin nn, i ≤ j → W i 0 ≤ W j 0) ∧
    (∃ σ : Fin nn → Fin nn, Function.Bijective σ ∧
      W = permuteRows nn 1
        (bk.dsygvxRun nn (dsygvxArgsOf bk nn)
          (bk.dsygvxSize nn (dsygvxArgsOf bk nn) A B).2 A B).w σ ∧
      Z = permuteColumns nn nn
        (bk.dsygvxRun nn (dsygvxArgsOf bk nn)
          (bk.dsygvxSize nn (dsygvxArgsOf bk nn) A B).2 A B).z σ ∧
      (∀ i j : Fin nn, i < j →
        (bk.dsygvxRun nn (dsygvxArgsOf bk nn)
            (bk.dsygvxSize nn (dsygvxArgsOf bk nn) A B).2 A B).w (σ i) 0 <
          (bk.dsygvxRun nn (dsygvxArgsOf bk nn)
            (bk.dsygvxSize nn (dsygvxArgsOf bk nn) A B).2 A B).w (σ j) 0 ∨
        ((bk.dsygvxRun nn (dsygvxArgsOf bk nn)
            (bk.dsygvxSize nn (dsygvxArgsOf bk nn) A B).2 A B).w (σ i) 0 =
          (bk.dsygvxRun nn (dsygvxArgsOf bk nn)
            (bk.dsygvxSize nn (dsygvxArgsOf bk nn) A B).2 A B).w (σ j) 0 ∧
          σ i < σ j))) := by
  simp only [eigenDecomp] at hok
  split_ifs at hok with h1 h2 h3
  have hpair := Except.ok.inj hok
  rw [Prod.mk.injEq] at hpair
  obtain ⟨hW, hZ⟩ := hpair
  constructor
  · intro i j hij
    rw [← hW]
    exact sortPerm_mono nn _ i j hij
  · refine ⟨sortPerm nn
      (bk.dsygvxRun nn (dsygvxArgsOf bk nn)
        (bk.dsygvxSize nn (dsygvxArgsOf bk nn) A B).2 A B).w,
      sortPerm_bijective nn _, hW.symm, hZ.symm, ?_⟩
    intro i j hij
    exact sortPerm_stable nn _ i j hij

theorem vsa_eigenDecomp_sorted_stable_witness :
    eigenDecomp bkTriv 7 1 1 =
      .ok (permuteRows 7 1 0 (sortPerm 7 0), permuteColumns 7 7 1 (sortPerm 7 0)) ∧
    (∀ i j : Fin 7, i ≤ j →
      permuteRows 7 1 0 (sortPerm 7 0) i 0 ≤ permuteRows 7 1 0 (sortPerm 7 0) j 0) := by
  have h := vsa_eigenDecomp_sorted_stable bkTriv 7 1 1
    (permuteRows 7 1 0 (sortPerm 7 0)) (permuteColumns 7 7 1 (sortPerm 7 0)) rfl
  exact ⟨rfl, h.1⟩

/-- C7: if either `dsygvx` call reports a nonzero status, or the eigenpair
count differs from `N - 6`, then `VSA::eigenDecomp` fails with an error that
identifies which condition occurred (`eigensolve` with the status, or
`eigenpairCount` with the counts), and never produces an `ok` result. -/
theorem vsa_eigenDecomp_error_fatal (bk : Backend) (nn : ℕ)
    (A B : Matrix (Fin nn) (Fin nn) ℚ) :
    ((bk.dsygvxSize nn (dsygvxArgsOf bk nn) A B).1 ≠ 0 →
      eigenDecomp bk nn A B =
        .error (.eigensolve (bk.dsygvxSize nn (dsygvxArgsOf bk nn) A B).1)) ∧
    ((bk.dsygvxSize nn (dsygvxArgsOf bk nn) A B).1 = 0 →
      (bk.dsygvxRun nn (dsygvxArgsOf bk nn)
        (bk.dsygvxSize nn (dsygvxArgsOf bk nn) A B).2 A B).info ≠ 0 →
      eigenDecomp bk nn A B =
        .error (.eigensolve (bk.dsygvxRun nn (dsygvxArgsOf bk nn)
          (bk.dsygvxSize nn (dsygvxArgsOf bk nn) A B).2 A B).info)) ∧
    ((bk.dsygvxSize nn (dsygvxArgsOf bk nn) A B).1 = 0 →
      (bk.dsygvxRun nn (dsygvxArgsOf bk nn)
        (bk.dsygvxSize nn (dsygvxArgsOf bk nn) A B).2 A B).info = 0 →
      (bk.dsygvxRun nn (dsygvxArgsOf bk nn)
        (bk.dsygvxSize nn (dsygvxArgsOf bk nn) A B).2 A B).m ≠ (nn : ℤ) - 6 →
      eigenDecomp bk nn A B =
        .error (.eigenpairCount (bk.dsygvxRun nn (dsygvxArgsOf bk nn)
          (bk.dsygvxSize nn (dsygvxArgsOf bk nn) A B).2 A B).m ((nn : ℤ) - 6))) ∧
    (∀ i g e : ℤ, VsaError.eigensolve i ≠ VsaError.eigenpairCount g e) := by
  refine ⟨?_, ?_, ?_, ?_⟩
  · intro h1
    simp only [eigenDecomp]
    rw [if_pos h1]
  · intro h1 h2
    simp only [eigenDecomp]
    rw [if_neg (by simpa using h1), if_pos h2]
  · intro h1 h2 h3
    simp only [eigenDecomp]
    rw [if_neg (by simpa using h1), if_neg (by simpa using h2), if_pos h3]
  · intro i g e hc
    exact absurd hc (by simp)

theorem vsa_eigenDecomp_error_fatal_witness :
    (bkBad.dsygvxSize 3 (dsygvxArgsOf bkBad 3) 1 1).1 ≠ 0 ∧
    eigenDecomp bkBad 3 1 1 =
      .error (.eigensolve (bkBad.dsygvxSize 3 (dsygvxArgsOf bkBad 3) 1 1).1) :=
  ⟨by decide, (vsa_eigenDecomp_error_fatal bkBad 3 1 1).1 (by decide)⟩

/-- C3: `VSA::massWeight` hands `M` to the Cholesky factorization and fails
with the factorization's status when it reports non-positive-definiteness;
on success it returns exactly the column-normalization of `R·U`, where `R`
is the upper triangle of the factorization output (the triangular multiply
`dtrmm('L','U','N','N')`: left side, upper, no transpose, non-unit
diagonal), and whenever the abstracted square root is exact on a column's
squared norm and that norm is nonzero, the returned column has unit
Euclidean norm. -/
theorem vsa_massWeight_spec (bk : Backend) (k c : ℕ) (U : Matrix (Fin k) (Fin c) ℚ)
    (M : Matrix (Fin k) (Fin k) ℚ) :
    ((bk.dpotrf k M).1 ≠ 0 →
      massWeight bk k c U M = .error (.choleskyFail (bk.dpotrf k M).1)) ∧
    ((bk.dpotrf k M).1 = 0 →
      massWeight bk k c U M =
        .ok (normalizeColumns k c bk.sqrtFn (upperTri k (bk.dpotrf k M).2 * U)) ∧
      (∀ j : Fin c,
        bk.sqrtFn (colNormSq k c (upperTri k (bk.dpotrf k M).2 * U) j) ^ 2 =
          colNormSq k c (upperTri k (bk.dpotrf k M).2 * U) j →
        colNormSq k c (upperTri k (bk.dpotrf k M).2 * U) j ≠ 0 →
        colNormSq k c
          (normalizeColumns k c bk.sqrtFn (upperTri k (bk.dpotrf k M).2 * U)) j = 1)) := by
  constructor
  · intro h
    simp only [massWeight]
    rw [if_pos h]
  · intro h0
    constructor
    · simp only [massWeight]
      rw [if_neg (by simp [h0])]
    · intro j hsq hS
      simp only [colNormSq, normalizeColumns, Matrix.of_apply] at hsq hS ⊢
      simp only [div_pow]
      rw [← Finset.sum_div, hsq]
      exact div_self hS

theorem vsa_massWeight_spec_witness :
    (bkTriv.dpotrf 1 1).1 = 0 ∧
    massWeight bkTriv 1 1 U3 1 =
      .ok (normalizeColumns 1 1 bkTriv.sqrtFn (upperTri 1 (bkTriv.dpotrf 1 1).2 * U3)) ∧
    colNormSq 1 1
      (normalizeColumns 1 1 bkTriv.sqrtFn (upperTri 1 (bkTriv.dpotrf 1 1).2 * U3)) 0 = 1 := by
  have h9 : colNormSq 1 1 (upperTri 1 (bkTriv.dpotrf 1 1).2 * U3) 0 = 9 := by
    norm_num [colNormSq, upperTri, U3, bkTriv, Matrix.mul_apply, Fin.sum_univ_one]
  have h := (vsa_massWeight_spec bkTriv 1 1 U3 1).2 rfl
  refine ⟨rfl, h.1, h.2 0 ?_ ?_⟩
  · rw [h9]
    norm_num [bkTriv]
  · rw [h9]
    norm_num

theorem eigenDecomp_bkTriv (nn : ℕ) (X Y : Matrix (Fin nn) (Fin nn) ℚ) :
    eigenDecomp bkTriv nn X Y =
      .ok (permuteRows nn 1 0 (sortPerm nn 0), permuteColumns nn nn 1 (sortPerm nn 0)) := by
  simp [eigenDecomp, bkTriv]

theorem massWeight_bkTriv (k c : ℕ) (U : Matrix (Fin k) (Fin c) ℚ)
    (M : Matrix (Fin k) (Fin k) ℚ) :
    massWeight bkTriv k c U M =
      .ok (normalizeColumns k c bkTriv.sqrtFn (upperTri k M * U)) := by
  simp [massWeight, bkTriv]

/-- C4: with masses supplied, `VSA::solve` builds the effective mass matrix
`Msp = Ms + Hse·Hee⁻¹·Me·Hee⁻¹·Hes` (stated against `specMsp`, written from
the spec's words with the Mathlib inverse), runs the generalized eigensolver
on the pair `(Hssp, Msp)`, and mass-weights the resulting eigenvectors
against `Msp` to produce the final eigenvectors. -/
theorem vsa_solve_mass_path (n s m : ℕ) (H : Matrix (Fin n) (Fin n) ℚ)
    (Mm : Matrix (Fin m) (Fin m) ℚ) (bk : Backend) (out : SolveOut s)
    (hok : solveE n s H (some ⟨m, Mm⟩) bk = .ok out) :
    ∃ (hl : 3 * s ≤ n) (hnm : n ≤ m) (W : Matrix (Fin (3 * s)) (Fin 1) ℚ)
      (Z : Matrix (Fin (3 * s)) (Fin (3 * s)) ℚ),
      out.msp = some (specMsp n (3 * s) m hl hnm H Mm) ∧
      eigenDecomp bk (3 * s) out.hssp (specMsp n (3 * s) m hl hnm H Mm) = .ok (W, Z) ∧
      out.eigenvals = W ∧
      massWeight bk (3 * s) (3 * s) Z (specMsp n (3 * s) m hl hnm H Mm) =
        .ok out.eigenvecs := by
  have hl := solveE_ok_le n s H (some ⟨m, Mm⟩) bk out hok
  have hdet := solveE_ok_det n s H (some ⟨m, Mm⟩) bk out hl hok
  have hnm := solveE_mass_ok_nm n s m H Mm bk out hl hdet hok
  rw [solveE_mass_eq n s m H Mm bk hl hdet hnm] at hok
  cases heig : eigenDecomp bk (3 * s) (hsspOf n s hl H) (mspOf n s m hl hnm H Mm) with
  | error e => rw [heig] at hok; simp at hok
  | ok wz =>
      rw [heig] at hok
      simp only [] at hok
      cases hmw : massWeight bk (3 * s) (3 * s) wz.2 (mspOf n s m hl hnm H Mm) with
      | error e => rw [hmw] at hok; simp at hok
      | ok evecs =>
          rw [hmw] at hok
          have h2 := Except.ok.inj hok
          refine ⟨hl, hnm, wz.1, wz.2, ?_, ?_, ?_, ?_⟩
          · rw [← h2, ← mspOf_eq_specMsp]
          · rw [← h2, ← mspOf_eq_specMsp]
            exact heig
          · rw [← h2]
          · rw [← h2, ← mspOf_eq_specMsp]
            exact hmw

theorem solveMassEvalW :
    solveE 3 1 1 (some ⟨3, (1 : Matrix (Fin 3) (Fin 3) ℚ)⟩) bkTriv =
      .ok ⟨hsspOf 3 1 (by decide) 1, some (mspOf 3 1 3 (by decide) (by decide) 1 1),
        permuteRows 3 1 0 (sortPerm 3 0),
        normalizeColumns 3 3 bkTriv.sqrtFn
          (upperTri 3 (mspOf 3 1 3 (by decide) (by decide) 1 1) *
            permuteColumns 3 3 1 (sortPerm 3 0))⟩ := by
  rw [solveE_mass_eq 3 1 3 1 1 bkTriv (by decide) (by decide) (by decide),
    eigenDecomp_bkTriv]
  simp only []
  rw [massWeight_bkTriv]

theorem vsa_solve_mass_path_witness :
    solveE 3 1 1 (some ⟨3, (1 : Matrix (Fin 3) (Fin 3) ℚ)⟩) bkTriv =
      .ok ⟨hsspOf 3 1 (by decide) 1, some (mspOf 3 1 3 (by decide) (by decide) 1 1),
        permuteRows 3 1 0 (sortPerm 3 0),
        normalizeColumns 3 3 bkTriv.sqrtFn
          (upperTri 3 (mspOf 3 1 3 (by decide) (by decide) 1 1) *
            permuteColumns 3 3 1 (sortPerm 3 0))⟩ ∧
    ∃ (hl : 3 * 1 ≤ 3) (hnm : 3 ≤ 3) (W : Matrix (Fin (3 * 1)) (Fin 1) ℚ)
      (Z : Matrix (Fin (3 * 1)) (Fin (3 * 1)) ℚ),
      (SolveOut.msp ⟨hsspOf 3 1 (by decide) 1,
        some (mspOf 3 1 3 (by decide) (by decide) 1 1),
        permuteRows 3 1 0 (sortPerm 3 0),
        normalizeColumns 3 3 bkTriv.sqrtFn
          (upperTri 3 (mspOf 3 1 3 (by decide) (by decide) 1 1) *
            permuteColumns 3 3 1 (sortPerm 3 0))⟩) =
        some (specMsp 3 (3 * 1) 3 hl hnm 1 1) ∧
      eigenDecomp bkTriv (3 * 1)
        (SolveOut.hssp ⟨hsspOf 3 1 (by decide) 1,
          some (mspOf 3 1 3 (by decide) (by decide) 1 1),
          permuteRows 3 1 0 (sortPerm 3 0),
          normalizeColumns 3 3 bkTriv.sqrtFn
            (upperTri 3 (mspOf 3 1 3 (by decide) (by decide) 1 1) *
              permuteColumns 3 3 1 (sortPerm 3 0))⟩)
        (specMsp 3 (3 * 1) 3 hl hnm 1 1) = .ok (W, Z) ∧
      (SolveOut.eigenvals ⟨hsspOf 3 1 (by decide) 1,
        some (mspOf 3 1 3 (by decide) (by decide) 1 1),
        permuteRows 3 1 0 (sortPerm 3 0),
        normalizeColumns 3 3 bkTriv.sqrtFn
          (upperTri 3 (mspOf 3 1 3 (by decide) (by decide) 1 1) *
            permuteColumns 3 3 1 (sortPerm 3 0))⟩) = W ∧
      massWeight bkTriv (3 * 1) (3 * 1) Z (specMsp 3 (3 * 1) 3 hl hnm 1 1) =
        .ok (SolveOut.eigenvecs ⟨hsspOf 3 1 (by decide) 1,
          some (mspOf 3 1 3 (by decide) (by decide) 1 1),
          permuteRows 3 1 0 (sortPerm 3 0),
          normalizeColumns 3 3 bkTriv.sqrtFn
            (upperTri 3 (mspOf 3 1 3 (by decide) (by decide) 1 1) *
              permuteColumns 3 3 1 (sortPerm 3 0))⟩) :=
  ⟨solveMassEvalW, vsa_solve_mass_path 3 1 3 1 1 bkTriv _ solveMassEvalW⟩

/-- C10: `VSA::eigenDecomp` and `VSA::massWeight` never mutate the buffers
their reference arguments point to: every destructive external call operates
on freshly allocated deep copies (`AA`, `BB`, `R`, `UU`), so after either
call the caller's buffers hold exactly their previous contents. -/
theorem vsa_no_input_mutation :
    (∀ (bk : Backend) (nn : ℕ) (h : List (Matrix (Fin nn) (Fin nn) ℚ)) (rA rB : ℕ),
      rA < h.length → rB < h.length →
      ((eigenDecompHeap bk nn h rA rB).1)[rA]? = h[rA]? ∧
      ((eigenDecompHeap bk nn h rA rB).1)[rB]? = h[rB]?) ∧
    (∀ (bk : Backend) (k c : ℕ) (hs : List (Matrix (Fin k) (Fin k) ℚ))
      (hr : List (Matrix (Fin k) (Fin c) ℚ)) (rU rM : ℕ),
      rM < hs.length → rU < hr.length →
      ((massWeightHeap bk k c hs hr rU rM).1.1)[rM]? = hs[rM]? ∧
      ((massWeightHeap bk k c hs hr rU rM).1.2)[rU]? = hr[rU]?) := by
  constructor
  · intro bk nn h rA rB hA hB
    cases hAeq : h[rA]? with
    | none => rw [List.getElem?_eq_none_iff] at hAeq; omega
    | some A =>
      cases hBeq : h[rB]? with
      | none => rw [List.getElem?_eq_none_iff] at hBeq; omega
      | some B =>
        simp only [eigenDecompHeap, hAeq, hBeq]
        split_ifs with h1 h2 h3
        · constructor
          · rw [List.getElem?_append_left (by simp; omega),
              List.getElem?_append_left hA, hAeq]
          · rw [List.getElem?_append_left (by simp; omega),
              List.getElem?_append_left hB, hBeq]
        · constructor
          · rw [List.getElem?_set_ne (by simp; omega), List.getElem?_set_ne (by omega),
              List.getElem?_append_left (by simp; omega),
              List.getElem?_append_left (by simp; omega),
              List.getElem?_append_left hA, hAeq]
          · rw [List.getElem?_set_ne (by simp; omega), List.getElem?_set_ne (by omega),
              List.getElem?_append_left (by simp; omega),
              List.getElem?_append_left (by simp; omega),
              List.getElem?_append_left hB, hBeq]
        · constructor
          · rw [List.getElem?_set_ne (by simp; omega), List.getElem?_set_ne (by omega),
              List.getElem?_append_left (by simp; omega),
              List.getElem?_append_left (by simp; omega),
              List.getElem?_append_left hA, hAeq]
          · rw [List.getElem?_set_ne (by simp; omega), List.getElem?_set_ne (by omega),
              List.getElem?_append_left (by simp; omega),
              List.getElem?_append_left (by simp; omega),
              List.getElem?_append_left hB, hBeq]
        · constructor
          · rw [List.getElem?_set_ne (by simp; omega), List.getElem?_set_ne (by simp; omega),
              List.getElem?_set_ne (by omega),
              List.getElem?_append_left (by simp; omega),
              List.getElem?_append_left (by simp; omega),
              List.getElem?_append_left hA, hAeq]
          · rw [List.getElem?_set_ne (by simp; omega), List.getElem?_set_ne (by simp; omega),
              List.getElem?_set_ne (by omega),
              List.getElem?_append_left (by simp; omega),
              List.getElem?_append_left (by simp; omega),
              List.getElem?_append_left hB, hBeq]
  · intro bk k c hs hr rU rM hM hU
    cases hMeq : hs[rM]? with
    | none => rw [List.getElem?_eq_none_iff] at hMeq; omega
    | some M =>
      cases hUeq : hr[rU]? with
      | none => rw [List.getElem?_eq_none_iff] at hUeq; omega
      | some U =>
        simp only [massWeightHeap, hMeq, hUeq]
        split_ifs with h1
        · constructor
          · rw [List.getElem?_set_ne (by omega), List.getElem?_append_left hM, hMeq]
          · exact hUeq
        · constructor
          · rw [List.getElem?_set_ne (by omega), List.getElem?_append_left hM, hMeq]
          · rw [List.getElem?_set_ne (by omega), List.getElem?_set_ne (by omega),
              List.getElem?_append_left hU, hUeq]

theorem vsa_no_input_mutation_witness :
    (0 : ℕ) < [(0 : Matrix (Fin 1) (Fin 1) ℚ)].length ∧
    ((eigenDecompHeap bkTriv 1 [(0 : Matrix (Fin 1) (Fin 1) ℚ)] 0 0).1)[0]? =
      [(0 : Matrix (Fin 1) (Fin 1) ℚ)][0]? ∧
    ((massWeightHeap bkTriv 1 1 [(0 : Matrix (Fin 1) (Fin 1) ℚ)] [U3] 0 0).1.1)[0]? =
      [(0 : Matrix (Fin 1) (Fin 1) ℚ)][0]? ∧
    ((massWeightHeap bkTriv 1 1 [(0 : Matrix (Fin 1) (Fin 1) ℚ)] [U3] 0 0).1.2)[0]? =
      [U3][0]? :=
  ⟨by decide,
    ((vsa_no_input_mutation).1 bkTriv 1 [0] 0 0 (by decide) (by decide)).1,
    ((vsa_no_input_mutation).2 bkTriv 1 1 [0] [U3] 0 0 (by decide) (by decide)).1,
    ((vsa_no_input_mutation).2 bkTriv 1 1 [0] [U3] 0 0 (by decide) (by decide)).2⟩

end ENM
